import Mathlib

/-!
Shallow embedding of the Cyberpunk 2077 Breach Protocol solver
(src/coreSolver-testing.js; src/fromClaudeWithTesseractOcr/BreachProtocol.js
is the identical solver).  JavaScript objects `{row, col, value}` become the
structure `Pos`, the solver class becomes the structure `BreachProtocol` with
its methods as namespaced definitions, JS `Set`s of coordinate keys and of
sequence indices become lists in insertion order (membership is all the code
uses for the coordinate set; `Array.from(set)` is the insertion-order list),
and `null` results of `explorePath` become `none`.

The recursion of `explorePath` in the source adds exactly one position per
call and stops as soon as the path reaches `bufferSize`, so its depth from a
call on a path of length L is bounded by `bufferSize - L`.  The embedding
makes that bound explicit through a `fuel` argument consumed only when the
function recurses; every caller in this file passes fuel at least
`bufferSize - currentPath.length`, which provably makes the fuel-exhaustion
branch unreachable (see `explorePath_fuel_eq`), so the fueled function
agrees with the source recursion.
-/

/-- Grid position together with the token value captured at selection time:
the `{row, col, value}` objects the source pushes on `currentPath`. -/
structure Pos where
  row : Nat
  col : Nat
  value : String
  deriving DecidableEq, Repr

/-- Result of the solver: the chosen path and the indices of the required
sequences recorded as completed (`{path, completedSequences}` in the source). -/
structure Solution where
  path : List Pos
  completedSequences : List Nat
  deriving DecidableEq, Repr

/-- The `nextDirection` argument of `explorePath`: the JS strings
`row` and `col`. -/
inductive Direction where
  | row
  | col
  deriving DecidableEq, Repr

/-- Source: `nextDirection === 'row' ? 'col' : 'row'`. -/
def Direction.flip : Direction → Direction
  | .row => .col
  | .col => .row

/-- The solver class fields set by the constructor. -/
structure BreachProtocol where
  codeMatrix : List (List String)
  requiredSequences : List (List String)
  bufferSize : Nat
  deriving DecidableEq, Repr

/-- Source: `this.size = codeMatrix.length` (assuming square matrix). -/
def BreachProtocol.size (bp : BreachProtocol) : Nat :=
  bp.codeMatrix.length

/-- Source method `isSubsequence(array, subsequence)`: the two-pointer scan
`for (i...; i < array.length && subIdx < subsequence.length; i++) if
(array[i] === subsequence[subIdx]) subIdx++; return subIdx ===
subsequence.length`, written as the equivalent recursion on `array`. -/
def isSubsequence : List String → List String → Bool
  | _, [] => true
  | [], _ :: _ => false
  | a :: as, s :: ss =>
    if a = s then isSubsequence as ss else isSubsequence as (s :: ss)

/-- Inner loop of `evaluateMove`: the greedy left-to-right count of matched
leading tokens of `sequence` inside `testPath` (`matchCount` in the source). -/
def matchCount : List String → List String → Nat
  | _, [] => 0
  | [], _ :: _ => 0
  | t :: ts, s :: ss =>
    if t = s then matchCount ts ss + 1 else matchCount ts (s :: ss)

/-- Source method `evaluateMove(currentPath, nextValue, completedSequences)`:
for each not-yet-completed sequence, simulate appending `nextValue` and score
-1000 for a full completion, otherwise -10 per matched leading token.
Lower is better. -/
def evaluateMove (bp : BreachProtocol) (currentPath : List String)
    (nextValue : String) (completedSequences : List Nat) : Int :=
  (List.range bp.requiredSequences.length).foldl
    (fun score i =>
      if i ∈ completedSequences then score
      else
        let sequence := bp.requiredSequences.getD i []
        let mc := matchCount (currentPath ++ [nextValue]) sequence
        if mc = sequence.length then score - 1000
        else score - (mc : Int) * 10)
    0

/-- Stable insertion step: `x` goes before the first element with a strictly
greater score, hence after every earlier element of equal score. -/
def insertByScore {α : Type} (score : α → Int) (x : α) : List α → List α
  | [] => [x]
  | y :: ys =>
    if score x < score y then x :: y :: ys else y :: insertByScore score x ys

/-- Embedding of `possibleMoves.sort((a, b) => f(a) - f(b))`: JS
`Array.prototype.sort` with a numeric comparator is a stable ascending sort
by the score, realised here as a stable insertion sort. -/
def stableSortByScore {α : Type} (score : α → Int) (l : List α) : List α :=
  l.foldl (fun acc y => insertByScore score y acc) []

/-- Default position used when reading a list of positions by index (the
source indexes only in bounds, so the default is never observed). -/
def dummyPos : Pos := ⟨0, 0, ""⟩

/-- Completed-sequence recomputation at the head of `explorePath`: the copy
`newCompletedSequences = new Set(completedSequences)` followed by the loop
adding every not-yet-completed index whose sequence is a subsequence of the
current path values.  In insertion order this is the old list followed by
the newly completed indices in ascending order. -/
def BreachProtocol.completedAfter (bp : BreachProtocol)
    (pathValues : List String) (completedSequences : List Nat) : List Nat :=
  completedSequences ++
    (List.range bp.requiredSequences.length).filter (fun i =>
      if i ∈ completedSequences then false
      else isSubsequence pathValues (bp.requiredSequences.getD i []))

/-- Move generation of `explorePath`: in the `col` phase every unvisited
cell of the column of `lastPos`, in the `row` phase every unvisited cell of
its row, in grid order. -/
def BreachProtocol.movesFor (bp : BreachProtocol) (lastPos : Pos)
    (visited : List (Nat × Nat)) : Direction → List Pos
  | Direction.col =>
    (List.range bp.size).filterMap (fun row =>
      if (row, lastPos.col) ∈ visited then none
      else some ⟨row, lastPos.col,
        (bp.codeMatrix.getD row []).getD lastPos.col ""⟩)
  | Direction.row =>
    (List.range bp.size).filterMap (fun col =>
      if (lastPos.row, col) ∈ visited then none
      else some ⟨lastPos.row, col,
        (bp.codeMatrix.getD lastPos.row []).getD col ""⟩)

/-- Condition under which a candidate replaces `bestSolution` in the move
loop of `explorePath` (source lines 128-131): strictly more completed
sequences, or equally many with a strictly shorter path (`null` is always
replaced). -/
def improves (sol : Solution) : Option Solution → Bool
  | none => true
  | some best =>
    decide (best.completedSequences.length < sol.completedSequences.length) ||
      (decide (sol.completedSequences.length = best.completedSequences.length) &&
        decide (sol.path.length < best.path.length))

/-- The `for (const move of possibleMoves)` loop of `explorePath`, folded
over the precomputed child results: keep the best result seen, and return a
child immediately when it completes all `total` sequences (the source
short-circuit `if (solution.completedSequences.length ===
this.requiredSequences.length) return solution`). -/
def pickSolution (total : Nat) :
    List (Option Solution) → Option Solution → Option Solution
  | [], best => best
  | none :: rest, best => pickSolution total rest best
  | some sol :: rest, best =>
    if sol.completedSequences.length = total then some sol
    else pickSolution total rest (if improves sol best then some sol else best)

/-- Source method `explorePath(currentPath, visited, nextDirection,
completedSequences)`.  The `fuel` argument only bounds the recursion depth:
it is consumed exactly where the source recurses, and the `fuel = 0` branch
is unreachable whenever `fuel ≥ bufferSize - currentPath.length` (proved in
`explorePath_fuel_eq`), which holds at every call site in this file.
All other branches mirror the source line by line: the buffer-full early
return, the recomputation of completed sequences, the all-complete early
return, move generation in grid order, the stable heuristic sort, and the
best-child fold. -/
def BreachProtocol.explorePath (bp : BreachProtocol) (fuel : Nat)
    (currentPath : List Pos) (visited : List (Nat × Nat))
    (nextDirection : Direction) (completedSequences : List Nat) :
    Option Solution :=
  if currentPath.length ≥ bp.bufferSize then
    some ⟨currentPath, completedSequences⟩
  else
    let newCompletedSequences :=
      bp.completedAfter (currentPath.map Pos.value) completedSequences
    if newCompletedSequences.length = bp.requiredSequences.length then
      some ⟨currentPath, newCompletedSequences⟩
    else
      match fuel with
      | 0 => none
      | fuel + 1 =>
        pickSolution bp.requiredSequences.length
          ((stableSortByScore
              (fun m => evaluateMove bp (currentPath.map Pos.value) m.value
                newCompletedSequences)
              (bp.movesFor (currentPath.getD (currentPath.length - 1) dummyPos)
                visited nextDirection)).map (fun m =>
            bp.explorePath fuel (currentPath ++ [m])
              (visited ++ [(m.row, m.col)]) nextDirection.flip
              newCompletedSequences))
          none

/-- The per-start-column candidate list built by `solve`: for each top-row
column, the result of `explorePath` on the one-element initial path, kept
only when non-null (the source `if (solution) solutions.push(solution)`). -/
def BreachProtocol.candidateSolutions (bp : BreachProtocol) : List Solution :=
  (List.range bp.size).filterMap (fun col =>
    bp.explorePath bp.bufferSize
      [⟨0, col, (bp.codeMatrix.getD 0 []).getD col ""⟩]
      [(0, col)] Direction.col [])

/-- Source method `solve()`.  The source sorts the candidate list with the
stable comparator `(a, b) => b.completedSequences.length -
a.completedSequences.length` and returns `solutions[0]`; a stable descending
sort by completed count followed by taking the head returns exactly the
first candidate attaining the maximal completed count, which is what the
fold below computes. -/
def BreachProtocol.solve (bp : BreachProtocol) : Solution :=
  match bp.candidateSolutions with
  | [] => ⟨[], []⟩
  | s :: rest =>
    rest.foldl (fun best t =>
      if best.completedSequences.length < t.completedSequences.length then t
      else best) s

/-- Source top-level function `solveBreachProtocol(codeMatrix,
requiredSequences, bufferSize)` (the source defaults `bufferSize` to 7 when
omitted; every use in this file passes it explicitly). -/
def solveBreachProtocol (codeMatrix : List (List String))
    (requiredSequences : List (List String)) (bufferSize : Nat) : Solution :=
  BreachProtocol.solve ⟨codeMatrix, requiredSequences, bufferSize⟩

/-- Indexed form of the movement rule on a path: each step shares the column
of its predecessor at odd target index and the row at even target index. -/
def alternatingSteps (path : List Pos) : Prop :=
  ∀ i, i + 1 < path.length →
    ((i + 1) % 2 = 1 →
      (path.getD (i + 1) dummyPos).col = (path.getD i dummyPos).col) ∧
    ((i + 1) % 2 = 0 →
      (path.getD (i + 1) dummyPos).row = (path.getD i dummyPos).row)

theorem isSubsequence_iff_sublist :
    ∀ (array subsequence : List String),
      isSubsequence array subsequence = true ↔
        List.Sublist subsequence array := by
  intro array
  induction array with
  | nil =>
    intro subsequence
    cases subsequence with
    | nil => simp [isSubsequence]
    | cons s ss => simp [isSubsequence]
  | cons a as ih =>
    intro subsequence
    cases subsequence with
    | nil => simp [isSubsequence, List.nil_sublist]
    | cons s ss =>
      by_cases has : a = s
      · subst has
        rw [isSubsequence, if_pos rfl, ih ss, List.cons_sublist_cons]
      · rw [isSubsequence, if_neg has, ih (s :: ss)]
        constructor
        · exact fun h => h.cons a
        · intro h
          cases h with
          | cons _ h => exact h
          | cons₂ => exact absurd rfl has

theorem isSubsequence_append {xs ys s : List String}
    (h : isSubsequence xs s = true) : isSubsequence (xs ++ ys) s = true := by
  rw [isSubsequence_iff_sublist] at h ⊢
  exact h.trans (List.sublist_append_left xs ys)

theorem mem_insertByScore {α : Type} (score : α → Int) (x y : α) :
    ∀ l : List α, y ∈ insertByScore score x l ↔ y = x ∨ y ∈ l := by
  intro l
  induction l with
  | nil => simp [insertByScore]
  | cons z zs ih =>
    rw [insertByScore]
    by_cases h : score x < score z
    · rw [if_pos h]
      simp
    · rw [if_neg h]
      simp only [List.mem_cons, ih]
      tauto

theorem mem_stableSortByScore {α : Type} (score : α → Int) (y : α)
    (l : List α) : y ∈ stableSortByScore score l ↔ y ∈ l := by
  have key : ∀ (l acc : List α),
      y ∈ l.foldl (fun acc z => insertByScore score z acc) acc ↔
        y ∈ acc ∨ y ∈ l := by
    intro l
    induction l with
    | nil => simp
    | cons z zs ih =>
      intro acc
      rw [List.foldl_cons, ih, mem_insertByScore]
      simp only [List.mem_cons]
      tauto
  rw [stableSortByScore, key]
  simp

theorem pickSolution_mem (total : Nat) :
    ∀ (results : List (Option Solution)) (best : Option Solution)
      (s : Solution),
      pickSolution total results best = some s →
      some s ∈ results ∨ best = some s := by
  intro results
  induction results with
  | nil =>
    intro best s h
    exact Or.inr (by simpa [pickSolution] using h)
  | cons r rest ih =>
    intro best s h
    cases r with
    | none =>
      rw [pickSolution] at h
      rcases ih best s h with h' | h'
      · exact Or.inl (List.mem_cons_of_mem _ h')
      · exact Or.inr h'
    | some sol =>
      rw [pickSolution] at h
      by_cases hc : sol.completedSequences.length = total
      · rw [if_pos hc] at h
        exact Or.inl (by simp [← Option.some_inj.mp h])
      · rw [if_neg hc] at h
        rcases ih _ s h with h' | h'
        · exact Or.inl (List.mem_cons_of_mem _ h')
        · by_cases hi : improves sol best = true
          · rw [if_pos hi] at h'
            exact Or.inl (by simp [← Option.some_inj.mp h'])
          · rw [if_neg hi] at h'
            exact Or.inr h'

theorem movesFor_col_mem (bp : BreachProtocol) (lastPos : Pos)
    (visited : List (Nat × Nat)) (m : Pos)
    (h : m ∈ bp.movesFor lastPos visited Direction.col) :
    m.col = lastPos.col := by
  rw [BreachProtocol.movesFor, List.mem_filterMap] at h
  obtain ⟨row, -, hrow⟩ := h
  by_cases hv : (row, lastPos.col) ∈ visited
  · rw [if_pos hv] at hrow
    exact absurd hrow (by simp)
  · rw [if_neg hv] at hrow
    rw [← Option.some_inj.mp hrow]

theorem movesFor_row_mem (bp : BreachProtocol) (lastPos : Pos)
    (visited : List (Nat × Nat)) (m : Pos)
    (h : m ∈ bp.movesFor lastPos visited Direction.row) :
    m.row = lastPos.row := by
  rw [BreachProtocol.movesFor, List.mem_filterMap] at h
  obtain ⟨col, -, hcol⟩ := h
  by_cases hv : (lastPos.row, col) ∈ visited
  · rw [if_pos hv] at hcol
    exact absurd hcol (by simp)
  · rw [if_neg hv] at hcol
    rw [← Option.some_inj.mp hcol]

theorem completedAfter_sound (bp : BreachProtocol) (pathValues : List String)
    (completedSequences : List Nat)
    (h : ∀ i ∈ completedSequences, i < bp.requiredSequences.length ∧
      isSubsequence pathValues (bp.requiredSequences.getD i []) = true) :
    ∀ i ∈ bp.completedAfter pathValues completedSequences,
      i < bp.requiredSequences.length ∧
      isSubsequence pathValues (bp.requiredSequences.getD i []) = true := by
  intro i hi
  rw [BreachProtocol.completedAfter, List.mem_append] at hi
  rcases hi with hi | hi
  · exact h i hi
  · rw [List.mem_filter, List.mem_range] at hi
    obtain ⟨hlt, hp⟩ := hi
    refine ⟨hlt, ?_⟩
    by_cases hc : i ∈ completedSequences
    · rw [if_pos hc] at hp
      exact absurd hp (by simp)
    · rwa [if_neg hc] at hp

theorem alternatingSteps_short (path : List Pos) (h : path.length ≤ 1) :
    alternatingSteps path := by
  intro i hi
  omega

theorem alternatingSteps_append_one (path : List Pos) (m : Pos)
    (hne : path ≠ []) (halt : alternatingSteps path)
    (hcol : path.length % 2 = 1 →
      m.col = (path.getD (path.length - 1) dummyPos).col)
    (hrow : path.length % 2 = 0 →
      m.row = (path.getD (path.length - 1) dummyPos).row) :
    alternatingSteps (path ++ [m]) := by
  have hlen : (path ++ [m]).length = path.length + 1 := by simp
  have hpos : 1 ≤ path.length := by
    cases path with
    | nil => exact absurd rfl hne
    | cons _ _ => simp
  intro i hi
  rw [hlen] at hi
  by_cases hlast : i + 1 = path.length
  · have hi' : i < path.length := by omega
    have h1 : (path ++ [m]).getD (i + 1) dummyPos = m := by
      rw [List.getD_append_right path [m] dummyPos (i + 1) (by omega)]
      simp [hlast]
    have h2 : (path ++ [m]).getD i dummyPos = path.getD i dummyPos :=
      List.getD_append path [m] dummyPos i hi'
    have hidx : i = path.length - 1 := by omega
    constructor
    · intro hodd
      rw [h1, h2, hidx]
      exact hcol (by omega)
    · intro heven
      rw [h1, h2, hidx]
      exact hrow (by omega)
  · have hi' : i + 1 < path.length := by omega
    have h1 : (path ++ [m]).getD (i + 1) dummyPos = path.getD (i + 1) dummyPos :=
      List.getD_append path [m] dummyPos (i + 1) hi'
    have h2 : (path ++ [m]).getD i dummyPos = path.getD i dummyPos :=
      List.getD_append path [m] dummyPos i (by omega)
    rw [h1, h2]
    exact halt i hi'

theorem explorePath_leaf (bp : BreachProtocol) (fuel : Nat)
    (currentPath : List Pos) (visited : List (Nat × Nat))
    (nextDirection : Direction) (completedSequences : List Nat)
    (h : currentPath.length ≥ bp.bufferSize) :
    bp.explorePath fuel currentPath visited nextDirection completedSequences =
      some ⟨currentPath, completedSequences⟩ := by
  rw [BreachProtocol.explorePath, if_pos h]

theorem explorePath_complete (bp : BreachProtocol) (fuel : Nat)
    (currentPath : List Pos) (visited : List (Nat × Nat))
    (nextDirection : Direction) (completedSequences : List Nat)
    (h1 : ¬ currentPath.length ≥ bp.bufferSize)
    (h2 : (bp.completedAfter (currentPath.map Pos.value)
        completedSequences).length = bp.requiredSequences.length) :
    bp.explorePath fuel currentPath visited nextDirection completedSequences =
      some ⟨currentPath,
        bp.completedAfter (currentPath.map Pos.value) completedSequences⟩ := by
  rw [BreachProtocol.explorePath, if_neg h1]
  simp only [if_pos h2]

theorem explorePath_zero (bp : BreachProtocol)
    (currentPath : List Pos) (visited : List (Nat × Nat))
    (nextDirection : Direction) (completedSequences : List Nat)
    (h1 : ¬ currentPath.length ≥ bp.bufferSize)
    (h2 : ¬ (bp.completedAfter (currentPath.map Pos.value)
        completedSequences).length = bp.requiredSequences.length) :
    bp.explorePath 0 currentPath visited nextDirection completedSequences =
      none := by
  rw [BreachProtocol.explorePath, if_neg h1]
  simp only [if_neg h2]

theorem explorePath_succ (bp : BreachProtocol) (fuel : Nat)
    (currentPath : List Pos) (visited : List (Nat × Nat))
    (nextDirection : Direction) (completedSequences : List Nat)
    (h1 : ¬ currentPath.length ≥ bp.bufferSize)
    (h2 : ¬ (bp.completedAfter (currentPath.map Pos.value)
        completedSequences).length = bp.requiredSequences.length) :
    bp.explorePath (fuel + 1) currentPath visited nextDirection
        completedSequences =
      pickSolution bp.requiredSequences.length
        ((stableSortByScore
            (fun m => evaluateMove bp (currentPath.map Pos.value) m.value
              (bp.completedAfter (currentPath.map Pos.value)
                completedSequences))
            (bp.movesFor (currentPath.getD (currentPath.length - 1) dummyPos)
              visited nextDirection)).map (fun m =>
          bp.explorePath fuel (currentPath ++ [m])
            (visited ++ [(m.row, m.col)]) nextDirection.flip
            (bp.completedAfter (currentPath.map Pos.value)
              completedSequences)))
        none := by
  rw [BreachProtocol.explorePath, if_neg h1]
  simp only [if_neg h2]

theorem explorePath_invariant (bp : BreachProtocol) :
    ∀ (fuel : Nat) (currentPath : List Pos) (visited : List (Nat × Nat))
      (nextDirection : Direction) (completedSequences : List Nat)
      (sol : Solution),
      bp.explorePath fuel currentPath visited nextDirection completedSequences
        = some sol →
      currentPath ≠ [] →
      (nextDirection = Direction.col ↔ currentPath.length % 2 = 1) →
      alternatingSteps currentPath →
      (∀ i ∈ completedSequences, i < bp.requiredSequences.length ∧
        isSubsequence (currentPath.map Pos.value)
          (bp.requiredSequences.getD i []) = true) →
      (∃ ext, sol.path = currentPath ++ ext) ∧
      alternatingSteps sol.path ∧
      (currentPath.length ≤ bp.bufferSize →
        sol.path.length ≤ bp.bufferSize) ∧
      (∀ i ∈ sol.completedSequences, i < bp.requiredSequences.length ∧
        isSubsequence (sol.path.map Pos.value)
          (bp.requiredSequences.getD i []) = true) := by
  intro fuel
  induction fuel with
  | zero =>
    intro currentPath visited dir completed sol hsol hne hdir halt hcomp
    by_cases hbuf : currentPath.length ≥ bp.bufferSize
    · rw [explorePath_leaf bp 0 currentPath visited dir completed hbuf] at hsol
      obtain rfl : Solution.mk currentPath completed = sol :=
        Option.some_inj.mp hsol
      exact ⟨⟨[], by simp⟩, halt, fun h => h, hcomp⟩
    · by_cases hcompl : (bp.completedAfter (currentPath.map Pos.value)
          completed).length = bp.requiredSequences.length
      · rw [explorePath_complete bp 0 currentPath visited dir completed hbuf
          hcompl] at hsol
        obtain rfl : Solution.mk currentPath
            (bp.completedAfter (currentPath.map Pos.value) completed) = sol :=
          Option.some_inj.mp hsol
        exact ⟨⟨[], by simp⟩, halt, fun h => h,
          completedAfter_sound bp _ completed hcomp⟩
      · rw [explorePath_zero bp currentPath visited dir completed hbuf
          hcompl] at hsol
        exact absurd hsol (by simp)
  | succ fuel ih =>
    intro currentPath visited dir completed sol hsol hne hdir halt hcomp
    by_cases hbuf : currentPath.length ≥ bp.bufferSize
    · rw [explorePath_leaf bp (fuel + 1) currentPath visited dir completed
        hbuf] at hsol
      obtain rfl : Solution.mk currentPath completed = sol :=
        Option.some_inj.mp hsol
      exact ⟨⟨[], by simp⟩, halt, fun h => h, hcomp⟩
    · by_cases hcompl : (bp.completedAfter (currentPath.map Pos.value)
          completed).length = bp.requiredSequences.length
      · rw [explorePath_complete bp (fuel + 1) currentPath visited dir
          completed hbuf hcompl] at hsol
        obtain rfl : Solution.mk currentPath
            (bp.completedAfter (currentPath.map Pos.value) completed) = sol :=
          Option.some_inj.mp hsol
        exact ⟨⟨[], by simp⟩, halt, fun h => h,
          completedAfter_sound bp _ completed hcomp⟩
      · rw [explorePath_succ bp fuel currentPath visited dir completed hbuf
          hcompl] at hsol
        rcases pickSolution_mem bp.requiredSequences.length _ none sol hsol
          with hmem | hinit
        swap
        · exact absurd hinit (by simp)
        obtain ⟨m, hm_mem, hm_eq⟩ := List.mem_map.mp hmem
        rw [mem_stableSortByScore] at hm_mem
        have hpos : 1 ≤ currentPath.length := by
          cases currentPath with
          | nil => exact absurd rfl hne
          | cons _ _ => simp
        have hstep :
            (currentPath.length % 2 = 1 →
              m.col = (currentPath.getD (currentPath.length - 1)
                dummyPos).col) ∧
            (currentPath.length % 2 = 0 →
              m.row = (currentPath.getD (currentPath.length - 1)
                dummyPos).row) := by
          cases dir with
          | col =>
            have hodd : currentPath.length % 2 = 1 := hdir.mp rfl
            exact ⟨fun _ => movesFor_col_mem bp _ visited m hm_mem,
              fun heven => by omega⟩
          | row =>
            have heven : currentPath.length % 2 = 0 := by
              rcases Nat.mod_two_eq_zero_or_one currentPath.length with h | h
              · exact h
              · exact absurd (hdir.mpr h) (by simp)
            exact ⟨fun hodd => by omega,
              fun _ => movesFor_row_mem bp _ visited m hm_mem⟩
        have halt' : alternatingSteps (currentPath ++ [m]) :=
          alternatingSteps_append_one currentPath m hne halt hstep.1 hstep.2
        have hdir' : dir.flip = Direction.col ↔
            (currentPath ++ [m]).length % 2 = 1 := by
          have hlen : (currentPath ++ [m]).length = currentPath.length + 1 :=
            by simp
          cases dir with
          | col =>
            have hodd : currentPath.length % 2 = 1 := hdir.mp rfl
            rw [hlen]
            simp only [Direction.flip]
            constructor
            · intro h
              exact absurd h (by simp)
            · intro h
              omega
          | row =>
            have heven : currentPath.length % 2 = 0 := by
              rcases Nat.mod_two_eq_zero_or_one currentPath.length with h | h
              · exact h
              · exact absurd (hdir.mpr h) (by simp)
            rw [hlen]
            simp only [Direction.flip]
            constructor
            · intro _
              omega
            · intro _
              trivial
        have hcomp' : ∀ i ∈ bp.completedAfter (currentPath.map Pos.value)
            completed,
            i < bp.requiredSequences.length ∧
            isSubsequence ((currentPath ++ [m]).map Pos.value)
              (bp.requiredSequences.getD i []) = true := by
          intro i hi
          have base := completedAfter_sound bp (currentPath.map Pos.value)
            completed hcomp i hi
          refine ⟨base.1, ?_⟩
          rw [List.map_append]
          exact isSubsequence_append base.2
        obtain ⟨⟨ext, hext⟩, haltsol, hlensol, hcompsol⟩ :=
          ih (currentPath ++ [m]) (visited ++ [(m.row, m.col)]) dir.flip
            (bp.completedAfter (currentPath.map Pos.value) completed) sol
            hm_eq (by simp) hdir' halt' hcomp'
        refine ⟨⟨m :: ext, by rw [hext]; simp⟩, haltsol, ?_, hcompsol⟩
        intro _
        refine hlensol ?_
        have : (currentPath ++ [m]).length = currentPath.length + 1 := by simp
        omega

theorem foldl_best_mem :
    ∀ (rest : List Solution) (s : Solution),
      rest.foldl (fun best t =>
        if best.completedSequences.length < t.completedSequences.length then t
        else best) s ∈ s :: rest := by
  intro rest
  induction rest with
  | nil => intro s; simp
  | cons r rs ih =>
    intro s
    rw [List.foldl_cons]
    rcases List.mem_cons.mp (ih (if s.completedSequences.length <
        r.completedSequences.length then r else s)) with h | h
    · rw [h]
      by_cases hc : s.completedSequences.length < r.completedSequences.length
      · rw [if_pos hc]
        simp
      · rw [if_neg hc]
        simp
    · simp [List.mem_cons_of_mem, h]

theorem foldl_best_ge :
    ∀ (rest : List Solution) (s t : Solution), t ∈ s :: rest →
      t.completedSequences.length ≤
        (rest.foldl (fun best t =>
          if best.completedSequences.length < t.completedSequences.length
          then t else best) s).completedSequences.length := by
  intro rest
  induction rest with
  | nil =>
    intro s t ht
    rcases List.mem_cons.mp ht with h | h
    · rw [h]
      simp
    · exact absurd h (by simp)
  | cons r rs ih =>
    intro s t ht
    rw [List.foldl_cons]
    by_cases hc : s.completedSequences.length < r.completedSequences.length
    · rw [if_pos hc]
      rcases List.mem_cons.mp ht with h | h
      · calc t.completedSequences.length ≤ r.completedSequences.length := by
              rw [h]; omega
          _ ≤ _ := ih r r (by simp)
      · exact ih r t h
    · rw [if_neg hc]
      rcases List.mem_cons.mp ht with h | h
      · rw [h]
        exact ih s s (by simp)
      · rcases List.mem_cons.mp h with h' | h'
        · calc t.completedSequences.length ≤ s.completedSequences.length := by
                rw [h']; omega
            _ ≤ _ := ih s s (by simp)
        · exact ih s t (by simp [h'])

theorem solve_eq_foldl (bp : BreachProtocol) (s : Solution)
    (rest : List Solution) (h : bp.candidateSolutions = s :: rest) :
    bp.solve = rest.foldl (fun best t =>
      if best.completedSequences.length < t.completedSequences.length then t
      else best) s := by
  rw [BreachProtocol.solve, h]

theorem solve_mem_candidateSolutions (bp : BreachProtocol)
    (h : bp.candidateSolutions ≠ []) :
    bp.solve ∈ bp.candidateSolutions := by
  cases hc : bp.candidateSolutions with
  | nil => exact absurd hc h
  | cons s rest =>
    rw [solve_eq_foldl bp s rest hc]
    exact foldl_best_mem rest s

theorem solve_count_max (bp : BreachProtocol) (s : Solution)
    (h : s ∈ bp.candidateSolutions) :
    s.completedSequences.length ≤ bp.solve.completedSequences.length := by
  cases hc : bp.candidateSolutions with
  | nil =>
    rw [hc] at h
    exact absurd h (by simp)
  | cons c rest =>
    rw [solve_eq_foldl bp c rest hc]
    rw [hc] at h
    exact foldl_best_ge rest c s h

theorem solve_empty_or_mem (bp : BreachProtocol) :
    bp.solve = ⟨[], []⟩ ∨ bp.solve ∈ bp.candidateSolutions := by
  cases hc : bp.candidateSolutions with
  | nil =>
    left
    rw [BreachProtocol.solve, hc]
  | cons s rest =>
    right
    have := solve_mem_candidateSolutions bp (by rw [hc]; simp)
    rwa [hc] at this

theorem candidateSolutions_invariant (bp : BreachProtocol) (s : Solution)
    (h : s ∈ bp.candidateSolutions) :
    s.path ≠ [] ∧ (s.path.getD 0 dummyPos).row = 0 ∧
    alternatingSteps s.path ∧
    (1 ≤ bp.bufferSize → s.path.length ≤ bp.bufferSize) ∧
    (∀ i ∈ s.completedSequences, i < bp.requiredSequences.length ∧
      isSubsequence (s.path.map Pos.value)
        (bp.requiredSequences.getD i []) = true) := by
  rw [BreachProtocol.candidateSolutions, List.mem_filterMap] at h
  obtain ⟨col, -, hsol⟩ := h
  obtain ⟨⟨ext, hext⟩, haltsol, hlensol, hcompsol⟩ :=
    explorePath_invariant bp bp.bufferSize
      [⟨0, col, (bp.codeMatrix.getD 0 []).getD col ""⟩] [(0, col)]
      Direction.col [] s hsol (by simp) (by simp)
      (alternatingSteps_short _ (by simp)) (by simp)
  refine ⟨by rw [hext]; simp, ?_, haltsol, fun h1 => hlensol (by simpa), hcompsol⟩
  rw [hext]
  rfl

theorem explorePath_fuel_succ (bp : BreachProtocol) :
    ∀ (fuel : Nat) (currentPath : List Pos) (visited : List (Nat × Nat))
      (nextDirection : Direction) (completedSequences : List Nat),
      bp.bufferSize - currentPath.length ≤ fuel →
      bp.explorePath fuel currentPath visited nextDirection
          completedSequences =
        bp.explorePath (fuel + 1) currentPath visited nextDirection
          completedSequences := by
  intro fuel
  induction fuel with
  | zero =>
    intro currentPath visited dir completed hf
    have hbuf : currentPath.length ≥ bp.bufferSize := by omega
    rw [explorePath_leaf bp 0 currentPath visited dir completed hbuf,
      explorePath_leaf bp 1 currentPath visited dir completed hbuf]
  | succ fuel ih =>
    intro currentPath visited dir completed hf
    by_cases hbuf : currentPath.length ≥ bp.bufferSize
    · rw [explorePath_leaf bp (fuel + 1) currentPath visited dir completed
        hbuf, explorePath_leaf bp (fuel + 2) currentPath visited dir
        completed hbuf]
    · by_cases hcompl : (bp.completedAfter (currentPath.map Pos.value)
          completed).length = bp.requiredSequences.length
      · rw [explorePath_complete bp (fuel + 1) currentPath visited dir
          completed hbuf hcompl, explorePath_complete bp (fuel + 2)
          currentPath visited dir completed hbuf hcompl]
      · rw [explorePath_succ bp fuel currentPath visited dir completed hbuf
          hcompl, explorePath_succ bp (fuel + 1) currentPath visited dir
          completed hbuf hcompl]
        congr 1
        apply List.map_congr_left
        intro m _
        apply ih
        have : (currentPath ++ [m]).length = currentPath.length + 1 := by simp
        omega

theorem explorePath_fuel_eq (bp : BreachProtocol) (currentPath : List Pos)
    (visited : List (Nat × Nat)) (nextDirection : Direction)
    (completedSequences : List Nat) (fuel₁ fuel₂ : Nat)
    (h₁ : bp.bufferSize - currentPath.length ≤ fuel₁)
    (h₂ : bp.bufferSize - currentPath.length ≤ fuel₂) :
    bp.explorePath fuel₁ currentPath visited nextDirection
        completedSequences =
      bp.explorePath fuel₂ currentPath visited nextDirection
        completedSequences := by
  have aux : ∀ f : Nat, bp.bufferSize - currentPath.length ≤ f →
      bp.explorePath f currentPath visited nextDirection
          completedSequences =
        bp.explorePath (bp.bufferSize - currentPath.length) currentPath
          visited nextDirection completedSequences := by
    intro f
    induction f with
    | zero =>
      intro hf
      have h0 : bp.bufferSize - currentPath.length = 0 := by omega
      rw [h0]
    | succ f ihf =>
      intro hf
      by_cases hb : bp.bufferSize - currentPath.length ≤ f
      · rw [← explorePath_fuel_succ bp f currentPath visited nextDirection
          completedSequences hb]
        exact ihf hb
      · have h0 : bp.bufferSize - currentPath.length = f + 1 := by omega
        rw [h0]
  rw [aux fuel₁ h₁, aux fuel₂ h₂]

theorem candidateSolutions_ne_nil (bp : BreachProtocol)
    (hN : 1 ≤ bp.size)
    (h : bp.bufferSize = 1 ∨ bp.requiredSequences = []) :
    bp.candidateSolutions ≠ [] := by
  intro hnil
  rw [BreachProtocol.candidateSolutions, List.filterMap_eq_nil_iff] at hnil
  have h0 := hnil 0 (List.mem_range.mpr hN)
  rcases h with hb | hs
  · rw [explorePath_leaf bp bp.bufferSize _ _ _ _ (by simp [hb])] at h0
    exact absurd h0 (by simp)
  · by_cases hge :
      ([(⟨0, 0, (bp.codeMatrix.getD 0 []).getD 0 ""⟩ : Pos)]).length ≥
        bp.bufferSize
    · rw [explorePath_leaf bp bp.bufferSize _ _ _ _ hge] at h0
      exact absurd h0 (by simp)
    · rw [explorePath_complete bp bp.bufferSize _ _ _ _ hge
        (by simp [BreachProtocol.completedAfter, hs])] at h0
      exact absurd h0 (by simp)

/-- Claim C1 (code bug witness): on the grid `[[AA,BB],[AA,BB]]` with the
single required sequence `[AA,AA]` and bufferSize 2, the solver returns the
path (0,0),(1,0) whose own token values `[AA,AA]` complete sequence 0 per
the subsequence predicate, yet reports `completedSequences = []`: the
buffer-full early return of `explorePath` hands back the caller-supplied
completed set computed from the path without its final token, so a
completion first achieved by the last buffer token is lost and the returned
Solution is not count-optimal among movement-legal paths, contrary to the
spec. -/
theorem solve_misses_final_token_completion :
    solveBreachProtocol [["AA", "BB"], ["AA", "BB"]] [["AA", "AA"]] 2 =
      ⟨[⟨0, 0, "AA"⟩, ⟨1, 0, "AA"⟩], []⟩ ∧
    isSubsequence
      ((solveBreachProtocol [["AA", "BB"], ["AA", "BB"]]
        [["AA", "AA"]] 2).path.map Pos.value) ["AA", "AA"] = true := by
  decide

/-- Claim C2 (counterexample): on the 1-row grid `[["AA"]]` with required
sequence `[BB]` and bufferSize 2 (which is at least 1), the solver returns
the empty Solution: the single start dead-ends below the buffer bound with
an incomplete sequence set, `explorePath` returns null, and `solve` falls
back to the empty Solution, refuting the claim that a non-empty path is
returned whenever bufferSize is at least 1. -/
theorem solve_empty_with_positive_buffer :
    solveBreachProtocol [["AA"]] [["BB"]] 2 = ⟨[], []⟩ := by
  decide

/-- Claim C2 (amended): for a grid with at least one row, the solver
returns a Solution with a non-empty path when bufferSize = 1 or when
requiredSequences is empty; for larger buffers with unsatisfiable
sequences the empty Solution can arise even with bufferSize at least 1. -/
theorem solve_nonempty_of_buffer_one_or_no_sequences
    (codeMatrix requiredSequences : List (List String)) (bufferSize : Nat)
    (hN : 1 ≤ codeMatrix.length)
    (h : bufferSize = 1 ∨ requiredSequences = []) :
    (solveBreachProtocol codeMatrix requiredSequences bufferSize).path ≠ [] := by
  have hcand : BreachProtocol.candidateSolutions
      ⟨codeMatrix, requiredSequences, bufferSize⟩ ≠ [] :=
    candidateSolutions_ne_nil ⟨codeMatrix, requiredSequences, bufferSize⟩ hN h
  exact (candidateSolutions_invariant _ _
    (solve_mem_candidateSolutions _ hcand)).1

/-- Claim C2 witness: concrete instance of the amended statement at the
1-by-1 grid with bufferSize 1. -/
theorem solve_nonempty_witness :
    1 ≤ ([["AA"]] : List (List String)).length ∧
    ((1 : Nat) = 1 ∨ ([["BB"]] : List (List String)) = []) ∧
    (solveBreachProtocol [["AA"]] [["BB"]] 1).path ≠ [] :=
  ⟨by decide, Or.inl rfl,
    solve_nonempty_of_buffer_one_or_no_sequences [["AA"]] [["BB"]] 1
      (by decide) (Or.inl rfl)⟩

/-- Claim C3 (counterexample): on grid `[[AA,BB],[BB,AA]]` with required
sequence `[BB]` and bufferSize 3, the start at column 0 yields a 2-step
candidate and the start at column 1 a 1-step candidate, both completing the
single sequence; the solver returns the longer column-0 candidate because
the top-level stable sort compares only completed counts, refuting the
claim that ties across start columns are broken by shorter path length. -/
theorem solve_tie_keeps_earlier_column :
    BreachProtocol.candidateSolutions
        ⟨[["AA", "BB"], ["BB", "AA"]], [["BB"]], 3⟩ =
      [⟨[⟨0, 0, "AA"⟩, ⟨1, 0, "BB"⟩], [0]⟩, ⟨[⟨0, 1, "BB"⟩], [0]⟩] ∧
    solveBreachProtocol [["AA", "BB"], ["BB", "AA"]] [["BB"]] 3 =
      ⟨[⟨0, 0, "AA"⟩, ⟨1, 0, "BB"⟩], [0]⟩ := by
  decide

/-- Claim C3 (amended): the returned Solution is one of the per-start-column
candidates and completes at least as many sequences as every candidate;
across start columns a tie on completed count is broken in favor of the
earliest start column (the stable sort compares only completed counts), not
by path length, so a same-count shorter candidate from a later column may
lose. -/
theorem solve_max_completed_among_candidates (bp : BreachProtocol)
    (h : bp.candidateSolutions ≠ []) :
    bp.solve ∈ bp.candidateSolutions ∧
    ∀ s ∈ bp.candidateSolutions,
      s.completedSequences.length ≤ bp.solve.completedSequences.length :=
  ⟨solve_mem_candidateSolutions bp h, fun s hs => solve_count_max bp s hs⟩

/-- Claim C3 witness: concrete instance of the amended statement. -/
theorem solve_max_completed_witness :
    BreachProtocol.candidateSolutions
        ⟨[["AA", "BB"], ["BB", "AA"]], [["BB"]], 3⟩ ≠ [] ∧
    (BreachProtocol.solve ⟨[["AA", "BB"], ["BB", "AA"]], [["BB"]], 3⟩ ∈
      BreachProtocol.candidateSolutions
        ⟨[["AA", "BB"], ["BB", "AA"]], [["BB"]], 3⟩ ∧
    ∀ s ∈ BreachProtocol.candidateSolutions
        ⟨[["AA", "BB"], ["BB", "AA"]], [["BB"]], 3⟩,
      s.completedSequences.length ≤
        (BreachProtocol.solve
          ⟨[["AA", "BB"], ["BB", "AA"]], [["BB"]], 3⟩).completedSequences.length) :=
  ⟨by decide,
    solve_max_completed_among_candidates
      ⟨[["AA", "BB"], ["BB", "AA"]], [["BB"]], 3⟩ (by decide)⟩

/-- Claim C4: entered with a path whose length equals bufferSize,
`explorePath` returns immediately with exactly the completed-sequence set
passed by its caller (which the caller computed from the path without the
final token), so a sequence first completed by the final buffer token is
never recorded. -/
theorem explorePath_at_buffer_returns_input (bp : BreachProtocol)
    (fuel : Nat) (currentPath : List Pos) (visited : List (Nat × Nat))
    (nextDirection : Direction) (completedSequences : List Nat)
    (h : currentPath.length = bp.bufferSize) :
    bp.explorePath fuel currentPath visited nextDirection
        completedSequences = some ⟨currentPath, completedSequences⟩ :=
  explorePath_leaf bp fuel currentPath visited nextDirection
    completedSequences (by omega)

/-- Claim C4 witness: concrete instance at a full buffer. -/
theorem explorePath_at_buffer_witness :
    ([(⟨0, 0, "AA"⟩ : Pos)]).length =
      (⟨[["AA"]], [["BB"]], 1⟩ : BreachProtocol).bufferSize ∧
    BreachProtocol.explorePath ⟨[["AA"]], [["BB"]], 1⟩ 4 [⟨0, 0, "AA"⟩]
        [(0, 0)] Direction.col [] = some ⟨[⟨0, 0, "AA"⟩], []⟩ :=
  ⟨by decide,
    explorePath_at_buffer_returns_input ⟨[["AA"]], [["BB"]], 1⟩ 4
      [⟨0, 0, "AA"⟩] [(0, 0)] Direction.col [] (by decide)⟩

/-- Claim C5 (counterexample): on Scenario A the solver reports no
completed sequence at all, because the two AA cells of this grid are not
joinable by any movement-legal 2-step path and the completion achieved by a
final buffer token would in any case not be recorded. -/
theorem scenarioA_reports_no_completion :
    (solveBreachProtocol [["AA", "BB"], ["BB", "AA"]]
      [["AA", "AA"]] 2).completedSequences = [] := by
  decide

/-- Claim C5 (amended): on Scenario A the solver actually returns the
2-step path (0,0),(1,0) with values AA,BB and an empty completed set. -/
theorem scenarioA_actual_solution :
    solveBreachProtocol [["AA", "BB"], ["BB", "AA"]] [["AA", "AA"]] 2 =
      ⟨[⟨0, 0, "AA"⟩, ⟨1, 0, "BB"⟩], []⟩ := by
  decide

/-- Claim C6: every index recorded in the completedSequences of the
returned Solution is a valid index whose required sequence is a
(non-contiguous) subsequence, per the isSubsequence predicate, of the
ordered token values of the returned path. -/
theorem solve_completion_sound (codeMatrix requiredSequences :
    List (List String)) (bufferSize : Nat) (i : Nat)
    (h : i ∈ (solveBreachProtocol codeMatrix requiredSequences
      bufferSize).completedSequences) :
    i < requiredSequences.length ∧
    isSubsequence ((solveBreachProtocol codeMatrix requiredSequences
        bufferSize).path.map Pos.value)
      (requiredSequences.getD i []) = true := by
  rcases solve_empty_or_mem ⟨codeMatrix, requiredSequences, bufferSize⟩ with
    hemp | hmem
  · rw [show solveBreachProtocol codeMatrix requiredSequences bufferSize =
      BreachProtocol.solve ⟨codeMatrix, requiredSequences, bufferSize⟩ from
      rfl, hemp] at h
    exact absurd h (by simp)
  · exact (candidateSolutions_invariant _ _ hmem).2.2.2.2 i h

/-- Claim C6 witness: concrete instance where a sequence is recorded
complete. -/
theorem solve_completion_sound_witness :
    0 ∈ (solveBreachProtocol [["BB"]] [["BB"]] 2).completedSequences ∧
    (0 < ([["BB"]] : List (List String)).length ∧
    isSubsequence ((solveBreachProtocol [["BB"]] [["BB"]] 2).path.map
        Pos.value)
      (([["BB"]] : List (List String)).getD 0 []) = true) :=
  ⟨by decide, solve_completion_sound [["BB"]] [["BB"]] 2 0 (by decide)⟩

/-- Claim C7: a non-empty returned path starts in row 0 and satisfies the
strictly alternating movement rule: position i shares the column of
position i-1 when i is odd and the row when i is even. -/
theorem solve_movement_legal (codeMatrix requiredSequences :
    List (List String)) (bufferSize : Nat)
    (h : (solveBreachProtocol codeMatrix requiredSequences
      bufferSize).path ≠ []) :
    ((solveBreachProtocol codeMatrix requiredSequences
      bufferSize).path.getD 0 dummyPos).row = 0 ∧
    alternatingSteps (solveBreachProtocol codeMatrix requiredSequences
      bufferSize).path := by
  rcases solve_empty_or_mem ⟨codeMatrix, requiredSequences, bufferSize⟩ with
    hemp | hmem
  · exact absurd (show (solveBreachProtocol codeMatrix requiredSequences
      bufferSize).path = [] by rw [show solveBreachProtocol codeMatrix
        requiredSequences bufferSize = BreachProtocol.solve
        ⟨codeMatrix, requiredSequences, bufferSize⟩ from rfl, hemp]) h
  · have inv := candidateSolutions_invariant _ _ hmem
    exact ⟨inv.2.1, inv.2.2.1⟩

/-- Claim C7 witness: concrete instance on a 2-by-2 grid. -/
theorem solve_movement_legal_witness :
    (solveBreachProtocol [["AA", "BB"], ["BB", "AA"]] [["BB"]] 3).path ≠ [] ∧
    (((solveBreachProtocol [["AA", "BB"], ["BB", "AA"]]
      [["BB"]] 3).path.getD 0 dummyPos).row = 0 ∧
    alternatingSteps (solveBreachProtocol [["AA", "BB"], ["BB", "AA"]]
      [["BB"]] 3).path) :=
  ⟨by decide,
    solve_movement_legal [["AA", "BB"], ["BB", "AA"]] [["BB"]] 3 (by decide)⟩

/-- Claim C8: with bufferSize at least 1, the returned path never exceeds
bufferSize positions. -/
theorem solve_buffer_bound (codeMatrix requiredSequences :
    List (List String)) (bufferSize : Nat) (h : 1 ≤ bufferSize) :
    (solveBreachProtocol codeMatrix requiredSequences
      bufferSize).path.length ≤ bufferSize := by
  rcases solve_empty_or_mem ⟨codeMatrix, requiredSequences, bufferSize⟩ with
    hemp | hmem
  · rw [show solveBreachProtocol codeMatrix requiredSequences bufferSize =
      BreachProtocol.solve ⟨codeMatrix, requiredSequences, bufferSize⟩ from
      rfl, hemp]
    simp
  · exact (candidateSolutions_invariant _ _ hmem).2.2.2.1 h

/-- Claim C8 witness: concrete instance with bufferSize 3. -/
theorem solve_buffer_bound_witness :
    1 ≤ 3 ∧
    (solveBreachProtocol [["AA", "BB"], ["BB", "AA"]]
      [["BB"]] 3).path.length ≤ 3 :=
  ⟨by decide, solve_buffer_bound [["AA", "BB"], ["BB", "AA"]] [["BB"]] 3
    (by decide)⟩

/-- Claim C9: the two-pointer isSubsequence scan decides exactly standard
non-contiguous subsequence containment: it returns true iff there is a
strictly increasing index assignment into the array matching the
subsequence pointwise. -/
theorem isSubsequence_iff_strictMono_indices
    (array subsequence : List String) :
    isSubsequence array subsequence = true ↔
      ∃ f : Fin subsequence.length → Fin array.length,
        StrictMono f ∧ ∀ j, array.get (f j) = subsequence.get j := by
  rw [isSubsequence_iff_sublist,
    List.sublist_iff_exists_fin_orderEmbedding_get_eq]
  constructor
  · rintro ⟨f, hf⟩
    exact ⟨f, f.strictMono, fun j => (hf j).symm⟩
  · rintro ⟨f, hmono, hf⟩
    exact ⟨OrderEmbedding.ofStrictMono f hmono, fun ix => (hf ix).symm⟩

/-- Claim C10: the recursion of explorePath is well-founded: at every call
the path grows by one position and the function returns as soon as the path
reaches bufferSize, so its result is independent of the fuel bound once the
fuel covers the remaining budget bufferSize - path length; in particular
the solver totally computes a Solution value. -/
theorem explorePath_fuel_irrelevant (bp : BreachProtocol)
    (currentPath : List Pos) (visited : List (Nat × Nat))
    (nextDirection : Direction) (completedSequences : List Nat)
    (fuel₁ fuel₂ : Nat)
    (h₁ : bp.bufferSize - currentPath.length ≤ fuel₁)
    (h₂ : bp.bufferSize - currentPath.length ≤ fuel₂) :
    bp.explorePath fuel₁ currentPath visited nextDirection
        completedSequences =
      bp.explorePath fuel₂ currentPath visited nextDirection
        completedSequences :=
  explorePath_fuel_eq bp currentPath visited nextDirection
    completedSequences fuel₁ fuel₂ h₁ h₂

/-- Claim C10 witness: concrete instance comparing fuel 1 and fuel 5 on a
start path of length 1 with bufferSize 2. -/
theorem explorePath_fuel_irrelevant_witness :
    (⟨[["AA"]], [["BB"]], 2⟩ : BreachProtocol).bufferSize -
      ([(⟨0, 0, "AA"⟩ : Pos)]).length ≤ 1 ∧
    (⟨[["AA"]], [["BB"]], 2⟩ : BreachProtocol).bufferSize -
      ([(⟨0, 0, "AA"⟩ : Pos)]).length ≤ 5 ∧
    BreachProtocol.explorePath ⟨[["AA"]], [["BB"]], 2⟩ 1 [⟨0, 0, "AA"⟩]
        [(0, 0)] Direction.col [] =
      BreachProtocol.explorePath ⟨[["AA"]], [["BB"]], 2⟩ 5 [⟨0, 0, "AA"⟩]
        [(0, 0)] Direction.col [] :=
  ⟨by decide, by decide,
    explorePath_fuel_irrelevant ⟨[["AA"]], [["BB"]], 2⟩ [⟨0, 0, "AA"⟩]
      [(0, 0)] Direction.col [] 1 5 (by decide) (by decide)⟩
